import Mathlib

/-!
Verification of the EVOLVE-BLOCK region protocol of the code-evolution
repository, shallowly embedded from
`src/code_evolution/core/program_manager.py`,
`src/code_evolution/core/evolve_block.py` and
`src/code_evolution/orchestrator.py`.

Program text is modelled as `List Char`; the line decomposition of a file
(Python `f.readlines()`) is `readlines`; marker detection (`marker in line`)
is `hasSubstr`.  Fallible operations return `Except Err`.
-/

/-- The newline character, written via its code point. -/
def newlineChar : Char := Char.ofNat 10

/-- One physical line of a program file (possibly ending in a newline). -/
abbrev Line := List Char

/-- The `ProgramManager.BLOCK_START_MARKER` constant. -/
def BLOCK_START_MARKER : List Char := "# EVOLVE-BLOCK-START".data

/-- The `ProgramManager.BLOCK_END_MARKER` constant. -/
def BLOCK_END_MARKER : List Char := "# EVOLVE-BLOCK-END".data

/-- Python substring containment `pat in s` (left-to-right scan). -/
def hasSubstr (pat : List Char) : List Char → Bool
  | [] => pat.isPrefixOf []
  | c :: cs => pat.isPrefixOf (c :: cs) || hasSubstr pat cs

/-- Python `self.BLOCK_START_MARKER in line`. -/
def isStartLine (l : Line) : Bool := hasSubstr BLOCK_START_MARKER l

/-- Python `self.BLOCK_END_MARKER in line`. -/
def isEndLine (l : Line) : Bool := hasSubstr BLOCK_END_MARKER l

/-- Scan for Python `str.count(pat)`: `skip` is the number of positions
still covered by the previous hit (so matches never overlap). -/
def countAux (pat : List Char) : List Char → Nat → Nat
  | [], _ => 0
  | c :: cs, 0 =>
    if pat.isPrefixOf (c :: cs) then 1 + countAux pat cs (pat.length - 1)
    else countAux pat cs 0
  | _ :: cs, Nat.succ k => countAux pat cs k

/-- Python `str.count(pat)`: non-overlapping occurrences, scanning left to
right and skipping the length of the pattern after each hit. -/
def countSubstr (s pat : List Char) : Nat := countAux pat s 0

/-- Python `content.split(sep)` for a one-character separator: keeps empty
pieces, always returns at least one piece. -/
def splitOnChar (sep : Char) : List Char → List (List Char)
  | [] => [[]]
  | c :: cs =>
    if c = sep then [] :: splitOnChar sep cs
    else
      match splitOnChar sep cs with
      | [] => [[c]]
      | p :: ps => (c :: p) :: ps

/-- Python `f.readlines()`: split after every newline character, the final
line possibly unterminated; the empty file gives no lines. -/
def readlines : List Char → List Line
  | [] => []
  | c :: cs =>
    if c = newlineChar then [newlineChar] :: readlines cs
    else
      match readlines cs with
      | [] => [[c]]
      | l :: ls => (c :: l) :: ls

/-- The `EvolveBlock` dataclass in `core/evolve_block.py`: a region with its
zero-based inclusive marker line positions, body text and positional id. -/
structure EvolveBlock where
  start_line : Nat
  end_line : Nat
  content : List Char
  block_id : Nat
deriving DecidableEq, Repr

/-- Errors raised by the program-manager operations (Python exceptions). -/
inductive Err where
  | noEndMarker (line : Nat)
  | countMismatch (expected got : Nat)
  | idMismatch (expected got : Nat)
  | indexError
  | fileNotFound
  | invalidIteration
deriving DecidableEq, Repr

/-- The message text of each raised `ValueError`, mirroring the Python
f-strings in `program_manager.py`. -/
def errorMessage : Err → List Char
  | .noEndMarker n =>
    "EVOLVE-BLOCK starting at line ".data ++ (Nat.repr n).data
      ++ " has no matching end marker".data
  | .countMismatch e g =>
    "Number of blocks mismatch: expected ".data ++ (Nat.repr e).data
      ++ ", got ".data ++ (Nat.repr g).data
  | .idMismatch e g =>
    "Block ID mismatch: expected ".data ++ (Nat.repr e).data
      ++ ", got ".data ++ (Nat.repr g).data
  | .indexError => "list index out of range".data
  | .fileNotFound => "Program file not found".data
  | .invalidIteration => "iteration_num must be at least 1".data

/-- The inner scan of both `extract_evolve_blocks` and
`replace_evolve_blocks`: from the lines following a start marker, return
the body lines before the first end-marker line, that end line itself, and
the remaining lines; `none` when no end-marker line follows. -/
def splitAtEnd : List Line → Option (List Line × Line × List Line)
  | [] => none
  | l :: ls =>
    if isEndLine l then some ([], l, ls)
    else
      match splitAtEnd ls with
      | none => none
      | some (body, e, rest) => some (l :: body, e, rest)

/-- The scanning loop of `ProgramManager.extract_evolve_blocks` (lines
112-158), one line per step: `i` is the absolute index of the next line,
`bid` the next block id; the last argument is `none` outside a block and
`some (sIdx, body)` after the start marker at line `sIdx`, with the body
lines accumulated so far (Python finds the end with an inner scan; this
loop carries the same information in its state). -/
def extractLoop : List Line → Nat → Nat → Option (Nat × List Line) →
    Except Err (List EvolveBlock)
  | [], _, _, none => .ok []
  | [], _, _, some (sIdx, _) => .error (.noEndMarker (sIdx + 1))
  | l :: ls, i, bid, none =>
    if isStartLine l then extractLoop ls (i + 1) bid (some (i, []))
    else extractLoop ls (i + 1) bid none
  | l :: ls, i, bid, some (sIdx, body) =>
    if isEndLine l then
      match extractLoop ls (i + 1) (bid + 1) none with
      | .error e2 => .error e2
      | .ok bs => .ok (⟨sIdx, i, body.flatten, bid⟩ :: bs)
    else extractLoop ls (i + 1) bid (some (sIdx, body ++ [l]))

/-- Method `ProgramManager.extract_evolve_blocks`, as a pure function of the line
decomposition of the text of the file. -/
def extract_evolve_blocks (lines : List Line) : Except Err (List EvolveBlock) :=
  extractLoop lines 0 0 none

/-- One step of Python `sorted(blocks, key=lambda b: b.block_id)` modelled
by insertion: place `b` before the first element with a larger-or-equal...
strictly larger id is kept after; equal ids keep insertion stable. -/
def insertBlock (b : EvolveBlock) : List EvolveBlock → List EvolveBlock
  | [] => [b]
  | c :: cs =>
    if b.block_id ≤ c.block_id then b :: c :: cs
    else c :: insertBlock b cs

/-- Python `sorted(blocks, key=lambda b: b.block_id)` (stable sort by id). -/
def sortBlocks : List EvolveBlock → List EvolveBlock
  | [] => []
  | b :: bs => insertBlock b (sortBlocks bs)

/-- The id-validation loop of `replace_evolve_blocks` (lines 210-217):
zip the sorted new blocks with the current blocks and fail on the first
position where the ids differ. -/
def checkIds : List EvolveBlock → List EvolveBlock → Except Err Unit
  | x :: xs, y :: ys =>
    if x.block_id = y.block_id then checkIds xs ys
    else .error (.idMismatch y.block_id x.block_id)
  | _, _ => .ok ()

/-- Lines 252-254 of `replace_evolve_blocks`: append one newline when the
new content is non-empty and does not already end in one. -/
def normalizeContent (c : List Char) : List Char :=
  if c ≠ [] ∧ c.getLast? ≠ some newlineChar then c ++ [newlineChar] else c

/-- The rebuild loop of `replace_evolve_blocks` (lines 222-265), one line
per step: outside regions (`none`) copy every line verbatim, and a start
marker line is kept and switches the state to `some i` (its index, used in
the missing-end error); inside a region body lines are dropped, and the
first end-marker line emits the normalized content of the next sorted
block followed by the end line itself (an exhausted block list is the
Python `IndexError` on `sorted_blocks[block_idx]`). -/
def buildLoop : List Line → List EvolveBlock → Nat → Option Nat →
    Except Err (List Line)
  | [], _, _, none => .ok []
  | [], _, _, some sIdx => .error (.noEndMarker (sIdx + 1))
  | l :: ls, sbs, i, none =>
    if isStartLine l then
      match buildLoop ls sbs (i + 1) (some i) with
      | .error e2 => .error e2
      | .ok out => .ok (l :: out)
    else
      match buildLoop ls sbs (i + 1) none with
      | .error e2 => .error e2
      | .ok out => .ok (l :: out)
  | l :: ls, sbs, i, some sIdx =>
    if isEndLine l then
      match sbs with
      | [] => .error .indexError
      | b :: bs =>
        match buildLoop ls bs (i + 1) none with
        | .error e2 => .error e2
        | .ok out => .ok (normalizeContent b.content :: l :: out)
    else buildLoop ls sbs (i + 1) (some sIdx)

/-- Method `ProgramManager.replace_evolve_blocks` as a pure function: re-extract
the current skeleton, check the replacement count, sort the replacements
by id, check the id sequence, then rebuild the line list.  The returned
lines flatten to the text written to the output file. -/
def replace_evolve_blocks (lines : List Line) (blocks : List EvolveBlock) :
    Except Err (List Line) :=
  match extract_evolve_blocks lines with
  | .error e => .error e
  | .ok current =>
    if blocks.length ≠ current.length then
      .error (.countMismatch current.length blocks.length)
    else
      let sorted_blocks := sortBlocks blocks
      match checkIds sorted_blocks current with
      | .error e => .error e
      | .ok _ => buildLoop lines sorted_blocks 0 none

/-- The nesting loop of `ProgramManager.validate_program` (lines 60-74).
Python appends and pops at the end of its `stack` list; the Lean list head
plays that end.  Only the tag `start` is ever pushed. -/
inductive StackTag where
  | start
deriving DecidableEq

def nestingLoop : List Line → List StackTag → Bool
  | [], stack => stack.isEmpty
  | l :: ls, stack =>
    if isStartLine l then nestingLoop ls (StackTag.start :: stack)
    else if isEndLine l then
      match stack with
      | [] => false
      | t :: rest =>
        if t ≠ StackTag.start then false
        else nestingLoop ls rest
    else nestingLoop ls stack

/-- Method `ProgramManager.validate_program` on the text of the file: counts of both
markers must be positive and equal, then the line loop must succeed. -/
def validate_program (content : List Char) : Bool :=
  let start_count := countSubstr content BLOCK_START_MARKER
  let end_count := countSubstr content BLOCK_END_MARKER
  if start_count = 0 ∨ end_count = 0 then false
  else if start_count ≠ end_count then false
  else nestingLoop (splitOnChar newlineChar content) []

/-- A flat file system: path (as text) to file content, `none` = absent.
Directories are not modelled; `mkdir(parents=True, exist_ok=True)` has no
observable effect on file contents. -/
def FS : Type := List Char → Option (List Char)

/-- Method `ProgramManager.replace_evolve_blocks` with its file effects, in the
statement order of the Python method: read the original program (missing
file fails), run the pure computation (any `ValueError` propagates with the
file system untouched — the write at line 276 is the only write the method makes,
after the full result is buffered), then write the flattened result to the
output path in one step. -/
def replace_evolve_blocks_fs (fs : FS) (program_path : List Char)
    (blocks : List EvolveBlock) (output_path : List Char) :
    Except Err Unit × FS :=
  match fs program_path with
  | none => (.error .fileNotFound, fs)
  | some text =>
    match replace_evolve_blocks (readlines text) blocks with
    | .error e => (.error e, fs)
    | .ok new_lines =>
      (.ok (), fun p => if p = output_path then some new_lines.flatten else fs p)

/-- Python `Path(p).name`: the last slash-separated component. -/
def pathName (p : List Char) : List Char :=
  (splitOnChar '/' p).getLastD []

/-- Index of the last dot in a file name, if any (Python `str.rfind`). -/
def lastDotIdx (name : List Char) : Option Nat :=
  (name.reverse.findIdx? (· = '.')).map (fun j => name.length - 1 - j)

/-- Python `Path(p).suffix`: from the last dot of the final component when
that dot is neither the first nor the last character, else empty. -/
def pathSuffix (p : List Char) : List Char :=
  let name := pathName p
  match lastDotIdx name with
  | none => []
  | some k => if 0 < k ∧ k + 1 < name.length then name.drop k else []

/-- Python `f"{n:03d}"` for a natural number: the decimal digits, padded
with leading zeros to width at least 3. -/
def pad3 (n : Nat) : List Char :=
  let s := (Nat.repr n).data
  List.replicate (3 - s.length) '0' ++ s

/-- The file name built by `ProgramManager.create_version` (lines 317-319):
`f"iteration_{iteration_num:03d}{extension}"` where `extension` is the
suffix of the base program.  The stem computed at line 317 is unused there. -/
def versioned_filename (base_program : List Char) (iteration_num : Nat) :
    List Char :=
  "iteration_".data ++ pad3 iteration_num ++ pathSuffix base_program

/-- Method `ProgramManager.create_version`, restricted to its naming behavior:
reject `iteration_num < 1`, otherwise return the versioned file name. -/
def create_version_filename (base_program : List Char) (iteration_num : Nat) :
    Except Err (List Char) :=
  if iteration_num < 1 then .error .invalidIteration
  else .ok (versioned_filename base_program iteration_num)

/-- Line 91 of `EvolutionOrchestrator.run`:
`initial_program_name = f"v00_{Path(self.initial_program_path).name}"`. -/
def run_initial_name (initial_program_path : List Char) : List Char :=
  "v00_".data ++ pathName initial_program_path

/-- The destination path used by `_setup_output_directory` line 75:
`self.output_dir / "programs" / initial_program_name`. -/
def setup_output_dest (output_dir initial_program_name : List Char) :
    List Char :=
  output_dir ++ "/programs/".data ++ initial_program_name

/-- Method `EvolutionOrchestrator._setup_output_directory` as called from `run`:
copy the initial program verbatim (`shutil.copy2`) into the `programs/`
subdirectory under the name built by `run_initial_name`. -/
def setup_output_directory (fs : FS) (output_dir initial_program_path : List Char) :
    Except Err FS :=
  match fs initial_program_path with
  | none => .error .fileNotFound
  | some content =>
    .ok (fun p =>
      if p = setup_output_dest output_dir (run_initial_name initial_program_path)
      then some content else fs p)

/-- Insertion step of a sort on plain naturals (used to phrase claims about
the sorted id multiset of a replacement list). -/
def insertNat (n : Nat) : List Nat → List Nat
  | [] => [n]
  | m :: ms => if n ≤ m then n :: m :: ms else m :: insertNat n ms

/-- Sorting a list of naturals by insertion. -/
def sortNat : List Nat → List Nat
  | [] => []
  | n :: ns => insertNat n (sortNat ns)

/-- A start-marker line terminated by a newline. -/
def demoStartLine : Line := BLOCK_START_MARKER ++ [newlineChar]

/-- An end-marker line terminated by a newline. -/
def demoEndLine : Line := BLOCK_END_MARKER ++ [newlineChar]

/-- A one-region program: start marker, body line `pass`, end marker. -/
def demoText1 : List Char :=
  BLOCK_START_MARKER ++ newlineChar ::
    ("pass".data ++ (newlineChar :: (BLOCK_END_MARKER ++ [newlineChar])))

/-- A two-region program with body lines `a` and `b`. -/
def demoText2 : List Char :=
  BLOCK_START_MARKER ++ newlineChar ::
    ("a".data ++ (newlineChar :: (BLOCK_END_MARKER ++ (newlineChar ::
      (BLOCK_START_MARKER ++ (newlineChar ::
        ("b".data ++ (newlineChar :: (BLOCK_END_MARKER ++ [newlineChar])))))))))

/-- A nested-marker program: start, start, end, end, one per line. -/
def demoNestedText : List Char :=
  BLOCK_START_MARKER ++ newlineChar ::
    (BLOCK_START_MARKER ++ (newlineChar ::
      (BLOCK_END_MARKER ++ (newlineChar :: BLOCK_END_MARKER))))

/-- A one-file file system holding `demoText1` at path `orig.py`. -/
def demoFS : FS := fun p => if p = "orig.py".data then some demoText1 else none

/-- Invariant of a `readlines` decomposition: every line except possibly
the last ends in a newline. -/
def properLines (ls : List Line) : Prop :=
  ∀ x ∈ ls.dropLast, x.getLast? = some newlineChar

/-- The id sequence `bid, bid + 1, ..., bid + n - 1`. -/
def idsFrom (bid : Nat) : Nat → List Nat
  | 0 => []
  | Nat.succ m => bid :: idsFrom (bid + 1) m

/-- The fields of a replacement block that `replace_evolve_blocks` reads:
its id and its content.  The position fields are not consulted. -/
def idContent (b : EvolveBlock) : Nat × List Char := (b.block_id, b.content)

/-! Section: Helper lemmas: the inner end-marker scan -/

theorem splitAtEnd_eq_append : ∀ (ls body : List Line) (e : Line) (rest : List Line),
    splitAtEnd ls = some (body, e, rest) → ls = body ++ e :: rest := by
  intro ls
  induction ls with
  | nil => intro body e rest h; simp [splitAtEnd] at h
  | cons l ls ih =>
    intro body e rest h
    simp only [splitAtEnd] at h
    by_cases hl : isEndLine l
    · simp [hl] at h
      obtain ⟨h1, h2, h3⟩ := h
      simp [← h1, ← h2, ← h3]
    · simp [hl] at h
      cases hsp : splitAtEnd ls with
      | none => rw [hsp] at h; simp at h
      | some v =>
        obtain ⟨body2, e2, rest2⟩ := v
        rw [hsp] at h
        simp at h
        obtain ⟨h1, h2, h3⟩ := h
        have := ih body2 e2 rest2 hsp
        simp [← h1, ← h2, ← h3, this]

theorem splitAtEnd_length {ls body : List Line} {e : Line} {rest : List Line}
    (h : splitAtEnd ls = some (body, e, rest)) :
    body.length + 1 + rest.length = ls.length := by
  have := congrArg List.length (splitAtEnd_eq_append ls body e rest h)
  simp at this
  omega

theorem splitAtEnd_isEnd {ls : List Line} : ∀ {body : List Line} {e : Line} {rest : List Line},
    splitAtEnd ls = some (body, e, rest) → isEndLine e = true := by
  induction ls with
  | nil => intro body e rest h; simp [splitAtEnd] at h
  | cons l ls ih =>
    intro body e rest h
    simp only [splitAtEnd] at h
    by_cases hl : isEndLine l
    · simp [hl] at h
      obtain ⟨h1, h2, h3⟩ := h
      rw [← h2]
      exact hl
    · simp [hl] at h
      cases hsp : splitAtEnd ls with
      | none => rw [hsp] at h; simp at h
      | some v =>
        obtain ⟨body2, e2, rest2⟩ := v
        rw [hsp] at h
        simp at h
        obtain ⟨h1, h2, h3⟩ := h
        rw [← h2]
        exact ih hsp

theorem splitAtEnd_body_not_end {ls : List Line} :
    ∀ {body : List Line} {e : Line} {rest : List Line},
    splitAtEnd ls = some (body, e, rest) → ∀ x ∈ body, isEndLine x = false := by
  induction ls with
  | nil => intro body e rest h; simp [splitAtEnd] at h
  | cons l ls ih =>
    intro body e rest h
    simp only [splitAtEnd] at h
    by_cases hl : isEndLine l
    · simp [hl] at h
      obtain ⟨h1, h2, h3⟩ := h
      intro x hx
      rw [h1] at hx
      simp at hx
    · simp [hl] at h
      cases hsp : splitAtEnd ls with
      | none => rw [hsp] at h; simp at h
      | some v =>
        obtain ⟨body2, e2, rest2⟩ := v
        rw [hsp] at h
        simp at h
        obtain ⟨h1, h2, h3⟩ := h
        intro x hx
        rw [← h1] at hx
        rcases List.mem_cons.mp hx with hx | hx
        · rw [hx]
          simp [hl]
        · exact ih hsp x hx

theorem splitAtEnd_of_not_end {ls : List Line} {x : Line}
    (hx : isEndLine x = false) :
    splitAtEnd (x :: ls) =
      (splitAtEnd ls).map (fun p => (x :: p.1, p.2.1, p.2.2)) := by
  simp only [splitAtEnd, hx]
  cases splitAtEnd ls with
  | none => rfl
  | some v => obtain ⟨b, e, r⟩ := v; rfl

/-! Section: Helper lemmas: characterizing the scan loops by `splitAtEnd` -/

theorem extractLoop_inside : ∀ (ls : List Line) (i bid sIdx : Nat) (acc : List Line),
    extractLoop ls i bid (some (sIdx, acc)) =
      match splitAtEnd ls with
      | none => .error (.noEndMarker (sIdx + 1))
      | some (body, _e, rest) =>
        match extractLoop rest (i + body.length + 1) (bid + 1) none with
        | .error e2 => .error e2
        | .ok bs => .ok (⟨sIdx, i + body.length, (acc ++ body).flatten, bid⟩ :: bs)
  := by
  intro ls
  induction ls with
  | nil => intro i bid sIdx acc; rfl
  | cons l ls ih =>
    intro i bid sIdx acc
    cases hl : isEndLine l with
    | true =>
      have hsp : splitAtEnd (l :: ls) = some ([], l, ls) := by
        simp [splitAtEnd, hl]
      rw [hsp]
      simp only [extractLoop, hl, if_true]
      simp
    | false =>
      have hstep : extractLoop (l :: ls) i bid (some (sIdx, acc))
          = extractLoop ls (i + 1) bid (some (sIdx, acc ++ [l])) := by
        simp [extractLoop, hl]
      rw [hstep, ih, splitAtEnd_of_not_end hl]
      cases hsp : splitAtEnd ls with
      | none => simp
      | some v =>
        obtain ⟨body, e, rest⟩ := v
        simp only [Option.map]
        have h1 : i + 1 + body.length + 1 = i + (l :: body).length + 1 := by
          simp
          omega
        rw [h1]
        cases hrec : extractLoop rest (i + (l :: body).length + 1) (bid + 1) none with
        | error e2 => simp
        | ok bs =>
          simp
          try omega

theorem buildLoop_inside : ∀ (ls : List Line) (sbs : List EvolveBlock) (i sIdx : Nat),
    buildLoop ls sbs i (some sIdx) =
      match splitAtEnd ls with
      | none => .error (.noEndMarker (sIdx + 1))
      | some (body, e, rest) =>
        match sbs with
        | [] => .error .indexError
        | b :: bs =>
          match buildLoop rest bs (i + body.length + 1) none with
          | .error e2 => .error e2
          | .ok out => .ok (normalizeContent b.content :: e :: out)
  := by
  intro ls
  induction ls with
  | nil => intro sbs i sIdx; rfl
  | cons l ls ih =>
    intro sbs i sIdx
    cases hl : isEndLine l with
    | true =>
      have hsp : splitAtEnd (l :: ls) = some ([], l, ls) := by
        simp [splitAtEnd, hl]
      rw [hsp]
      simp only [buildLoop, hl, if_true]
      cases sbs with
      | nil => simp
      | cons b bs => simp
    | false =>
      have hstep : buildLoop (l :: ls) sbs i (some sIdx)
          = buildLoop ls sbs (i + 1) (some sIdx) := by
        simp [buildLoop, hl]
      rw [hstep, ih, splitAtEnd_of_not_end hl]
      cases hsp : splitAtEnd ls with
      | none => simp
      | some v =>
        obtain ⟨body, e, rest⟩ := v
        simp only [Option.map]
        cases sbs with
        | nil => simp
        | cons b bs =>
          have h1 : i + 1 + body.length + 1 = i + (l :: body).length + 1 := by
            simp
            omega
          rw [h1]

theorem extractLoop_cons_start {l : Line} (hl : isStartLine l = true)
    (ls : List Line) (i bid : Nat) :
    extractLoop (l :: ls) i bid none =
      match splitAtEnd ls with
      | none => .error (.noEndMarker (i + 1))
      | some (body, _e, rest) =>
        match extractLoop rest (i + body.length + 2) (bid + 1) none with
        | .error e2 => .error e2
        | .ok bs => .ok (⟨i, i + body.length + 1, body.flatten, bid⟩ :: bs) := by
  have hstep : extractLoop (l :: ls) i bid none
      = extractLoop ls (i + 1) bid (some (i, [])) := by
    simp [extractLoop, hl]
  rw [hstep, extractLoop_inside]
  cases hsp : splitAtEnd ls with
  | none => rfl
  | some v =>
    obtain ⟨body, e, rest⟩ := v
    have h1 : i + 1 + body.length + 1 = i + body.length + 2 := by omega
    have h2 : i + 1 + body.length = i + body.length + 1 := by omega
    simp only [h1, h2, List.nil_append]

theorem extractLoop_cons_not_start {l : Line} (hl : isStartLine l = false)
    (ls : List Line) (i bid : Nat) :
    extractLoop (l :: ls) i bid none = extractLoop ls (i + 1) bid none := by
  simp [extractLoop, hl]

theorem buildLoop_cons_start {l : Line} (hl : isStartLine l = true)
    (ls : List Line) (sbs : List EvolveBlock) (i : Nat) :
    buildLoop (l :: ls) sbs i none =
      match splitAtEnd ls with
      | none => .error (.noEndMarker (i + 1))
      | some (body, e, rest) =>
        match sbs with
        | [] => .error .indexError
        | b :: bs =>
          match buildLoop rest bs (i + body.length + 2) none with
          | .error e2 => .error e2
          | .ok out => .ok (l :: normalizeContent b.content :: e :: out) := by
  have hstep : buildLoop (l :: ls) sbs i none
      = match buildLoop ls sbs (i + 1) (some i) with
        | .error e2 => .error e2
        | .ok out => .ok (l :: out) := by
    simp [buildLoop, hl]
  rw [hstep, buildLoop_inside]
  cases hsp : splitAtEnd ls with
  | none => rfl
  | some v =>
    obtain ⟨body, e, rest⟩ := v
    cases sbs with
    | nil => rfl
    | cons b bs =>
      have h1 : i + 1 + body.length + 1 = i + body.length + 2 := by omega
      simp only [h1]
      cases hrec : buildLoop rest bs (i + body.length + 2) none with
      | error e2 => rfl
      | ok out => rfl

theorem buildLoop_cons_not_start {l : Line} (hl : isStartLine l = false)
    (ls : List Line) (sbs : List EvolveBlock) (i : Nat) :
    buildLoop (l :: ls) sbs i none =
      match buildLoop ls sbs (i + 1) none with
      | .error e2 => .error e2
      | .ok out => .ok (l :: out) := by
  simp [buildLoop, hl]

/-! Section: Helper lemmas: line-terminator bookkeeping -/

theorem properLines_suffix {a b : List Line} (h : properLines (a ++ b)) :
    properLines b := by
  intro x hx
  apply h
  cases b with
  | nil => simp at hx
  | cons y ys =>
    rw [List.dropLast_append_cons]
    exact List.mem_append_right _ hx

theorem properLines_tail {l : Line} {ls : List Line}
    (h : properLines (l :: ls)) : properLines ls :=
  properLines_suffix (a := [l]) h

theorem properLines_body {l : Line} {body : List Line} {e : Line} {rest : List Line}
    (h : properLines (l :: (body ++ e :: rest))) :
    ∀ x ∈ body, x.getLast? = some newlineChar := by
  intro x hx
  apply h
  have h2 : l :: (body ++ e :: rest) = (l :: body) ++ e :: rest := by simp
  rw [h2, List.dropLast_append_cons]
  exact List.mem_append_left _ (List.mem_cons_of_mem _ hx)

theorem flatten_endsNL {body : List Line} (hne : body ≠ [])
    (h : ∀ x ∈ body, x.getLast? = some newlineChar) :
    body.flatten.getLast? = some newlineChar := by
  induction body with
  | nil => exact absurd rfl hne
  | cons x xs ih =>
    by_cases hxs : xs = []
    · subst hxs
      simpa using h x (by simp)
    · rw [List.flatten_cons, List.getLast?_append]
      rw [ih hxs (fun z hz => h z (List.mem_cons_of_mem _ hz))]
      rfl

theorem normalizeContent_of_endsNL {c : List Char}
    (h : c.getLast? = some newlineChar) : normalizeContent c = c := by
  simp [normalizeContent, h]

/-! Section: Helper lemmas: `readlines` -/

theorem readlines_flatten : ∀ t : List Char, (readlines t).flatten = t := by
  intro t
  induction t with
  | nil => rfl
  | cons c cs ih =>
    by_cases hc : c = newlineChar
    · subst hc
      simp [readlines, ih]
    · simp only [readlines, hc, if_false]
      cases hrl : readlines cs with
      | nil =>
        rw [hrl] at ih
        simp at ih
        simp [← ih]
      | cons l ls =>
        rw [hrl] at ih
        simp at ih ⊢
        simpa using ih

theorem readlines_proper : ∀ t : List Char, properLines (readlines t) := by
  intro t
  induction t with
  | nil => intro x hx; simp [readlines] at hx
  | cons c cs ih =>
    by_cases hc : c = newlineChar
    · subst hc
      intro x hx
      have hr : readlines (newlineChar :: cs) = [newlineChar] :: readlines cs := by
        simp [readlines]
      rw [hr] at hx
      cases hrl : readlines cs with
      | nil => rw [hrl] at hx; simp at hx
      | cons l ls =>
        rw [hrl] at hx
        rw [List.dropLast_cons₂] at hx
        rcases List.mem_cons.mp hx with hx1 | hx2
        · rw [hx1]
          rfl
        · rw [hrl] at ih
          exact ih x hx2
    · intro x hx
      simp only [readlines, hc, if_false] at hx
      cases hrl : readlines cs with
      | nil => rw [hrl] at hx; simp at hx
      | cons l ls =>
        rw [hrl] at hx
        rw [hrl] at ih
        cases ls with
        | nil => simp at hx
        | cons m ms =>
          rw [List.dropLast_cons₂] at hx
          rcases List.mem_cons.mp hx with hx1 | hx2
          · have hl : l.getLast? = some newlineChar := by
              apply ih
              rw [List.dropLast_cons₂]
              exact List.mem_cons_self _ _
            have hlne : l ≠ [] := by
              intro h0
              rw [h0] at hl
              simp at hl
            rw [hx1]
            cases l with
            | nil => exact absurd rfl hlne
            | cons a as =>
              rw [List.getLast?_cons_cons]
              exact hl
          · apply ih
            rw [List.dropLast_cons₂]
            exact List.mem_cons_of_mem _ hx2


theorem extractLoop_start_none {l : Line} {ls : List Line}
    (hl : isStartLine l = true) (hsp : splitAtEnd ls = none) (i bid : Nat) :
    extractLoop (l :: ls) i bid none = .error (.noEndMarker (i + 1)) := by
  rw [extractLoop_cons_start hl, hsp]

theorem extractLoop_start_some {l : Line} {ls body : List Line} {e : Line}
    {rest : List Line} (hl : isStartLine l = true)
    (hsp : splitAtEnd ls = some (body, e, rest)) (i bid : Nat) :
    extractLoop (l :: ls) i bid none =
      match extractLoop rest (i + body.length + 2) (bid + 1) none with
      | .error e2 => .error e2
      | .ok bs => .ok (⟨i, i + body.length + 1, body.flatten, bid⟩ :: bs) := by
  rw [extractLoop_cons_start hl, hsp]

theorem buildLoop_start_none {l : Line} {ls : List Line}
    (hl : isStartLine l = true) (hsp : splitAtEnd ls = none)
    (sbs : List EvolveBlock) (i : Nat) :
    buildLoop (l :: ls) sbs i none = .error (.noEndMarker (i + 1)) := by
  rw [buildLoop_cons_start hl, hsp]

theorem buildLoop_start_some {l : Line} {ls body : List Line} {e : Line}
    {rest : List Line} (hl : isStartLine l = true)
    (hsp : splitAtEnd ls = some (body, e, rest))
    (b : EvolveBlock) (bs : List EvolveBlock) (i : Nat) :
    buildLoop (l :: ls) (b :: bs) i none =
      match buildLoop rest bs (i + body.length + 2) none with
      | .error e2 => .error e2
      | .ok out => .ok (l :: normalizeContent b.content :: e :: out) := by
  rw [buildLoop_cons_start hl, hsp]

/-! Section: Helper lemmas: round trip of extract and rebuild -/

theorem extract_build_round : ∀ (n : Nat) (lines : List Line), lines.length ≤ n →
    properLines lines →
    ∀ (i bid j : Nat) (bs : List EvolveBlock),
      extractLoop lines i bid none = .ok bs →
      ∃ out, buildLoop lines bs j none = .ok out ∧ out.flatten = lines.flatten := by
  intro n
  induction n with
  | zero =>
    intro lines hlen _ i bid j bs hex
    have hnil : lines = [] := List.eq_nil_of_length_eq_zero (by omega)
    subst hnil
    simp [extractLoop] at hex
    subst hex
    exact ⟨[], rfl, rfl⟩
  | succ n ih =>
    intro lines hlen hproper i bid j bs hex
    cases lines with
    | nil =>
      simp [extractLoop] at hex
      subst hex
      exact ⟨[], rfl, rfl⟩
    | cons l ls =>
      cases hl : isStartLine l with
      | false =>
        rw [extractLoop_cons_not_start hl] at hex
        obtain ⟨out, hb, hf⟩ := ih ls (by simp at hlen; omega)
          (properLines_tail hproper) (i + 1) bid (j + 1) bs hex
        refine ⟨l :: out, ?_, ?_⟩
        · rw [buildLoop_cons_not_start hl, hb]
        · simp [hf]
      | true =>
        cases hsp : splitAtEnd ls with
        | none => rw [extractLoop_start_none hl hsp] at hex; simp at hex
        | some v =>
          obtain ⟨body, e, rest⟩ := v
          rw [extractLoop_start_some hl hsp] at hex
          cases hrec : extractLoop rest (i + body.length + 2) (bid + 1) none with
          | error e2 => rw [hrec] at hex; simp at hex
          | ok bs' =>
            rw [hrec] at hex
            simp at hex
            have hls : ls = body ++ e :: rest := splitAtEnd_eq_append ls body e rest hsp
            have hbody : ∀ x ∈ body, x.getLast? = some newlineChar := by
              rw [hls] at hproper
              exact properLines_body hproper
            have hrest : properLines rest := by
              rw [hls] at hproper
              have h2 := properLines_tail hproper
              have h3 : properLines ((body ++ [e]) ++ rest) := by
                rw [List.append_assoc]
                simpa using h2
              exact properLines_suffix h3
            have hlen2 : rest.length ≤ n := by
              have := splitAtEnd_length hsp
              simp at hlen
              omega
            obtain ⟨out, hb, hf⟩ := ih rest hlen2 hrest (i + body.length + 2)
              (bid + 1) (j + body.length + 2) bs' hrec
            have hnorm : normalizeContent body.flatten = body.flatten := by
              by_cases hbe : body = []
              · subst hbe
                rfl
              · exact normalizeContent_of_endsNL (flatten_endsNL hbe hbody)
            refine ⟨l :: normalizeContent body.flatten :: e :: out, ?_, ?_⟩
            · rw [← hex, buildLoop_start_some hl hsp, hb]
            · rw [hnorm]
              simp only [List.flatten_cons, hls, List.flatten_append, hf]

/-! Section: Helper lemmas: block ids assigned by extraction -/

theorem extract_ids : ∀ (n : Nat) (lines : List Line), lines.length ≤ n →
    ∀ (i bid : Nat) (bs : List EvolveBlock),
      extractLoop lines i bid none = .ok bs →
      bs.map EvolveBlock.block_id = idsFrom bid bs.length := by
  intro n
  induction n with
  | zero =>
    intro lines hlen i bid bs hex
    have hnil : lines = [] := List.eq_nil_of_length_eq_zero (by omega)
    subst hnil
    simp [extractLoop] at hex
    subst hex
    rfl
  | succ n ih =>
    intro lines hlen i bid bs hex
    cases lines with
    | nil =>
      simp [extractLoop] at hex
      subst hex
      rfl
    | cons l ls =>
      cases hl : isStartLine l with
      | false =>
        rw [extractLoop_cons_not_start hl] at hex
        exact ih ls (by simp at hlen; omega) (i + 1) bid bs hex
      | true =>
        cases hsp : splitAtEnd ls with
        | none => rw [extractLoop_start_none hl hsp] at hex; simp at hex
        | some v =>
          obtain ⟨body, e, rest⟩ := v
          rw [extractLoop_start_some hl hsp] at hex
          cases hrec : extractLoop rest (i + body.length + 2) (bid + 1) none with
          | error e2 => rw [hrec] at hex; simp at hex
          | ok bs' =>
            rw [hrec] at hex
            simp at hex
            have hlen2 : rest.length ≤ n := by
              have := splitAtEnd_length hsp
              simp at hlen
              omega
            have := ih rest hlen2 (i + body.length + 2) (bid + 1) bs' hrec
            rw [← hex]
            simp [this, idsFrom]

theorem idsFrom_eq_range_add : ∀ (n bid : Nat),
    idsFrom bid n = (List.range n).map (bid + ·) := by
  intro n
  induction n with
  | zero => intro bid; rfl
  | succ n ih =>
    intro bid
    rw [idsFrom, List.range_succ_eq_map, ih]
    simp [List.map_map]
    intro a _
    omega

theorem idsFrom_zero (n : Nat) : idsFrom 0 n = List.range n := by
  rw [idsFrom_eq_range_add]
  simp

theorem pairwise_lt_idsFrom (n bid : Nat) :
    List.Pairwise (· < ·) (idsFrom bid n) := by
  rw [idsFrom_eq_range_add]
  rw [List.pairwise_map]
  exact (List.pairwise_lt_range n).imp (fun h => by omega)

/-! Section: Helper lemmas: the stable sort by id -/

theorem sortBlocks_eq_self : ∀ (l : List EvolveBlock),
    List.Pairwise (fun a b => a.block_id ≤ b.block_id) l → sortBlocks l = l := by
  intro l
  induction l with
  | nil => intro _; rfl
  | cons b bs ih =>
    intro h
    rw [List.pairwise_cons] at h
    obtain ⟨hb, htail⟩ := h
    rw [sortBlocks, ih htail]
    cases bs with
    | nil => rfl
    | cons c cs =>
      have := hb c (by simp)
      simp [insertBlock, this]

theorem checkIds_ok_of_map_eq : ∀ (xs ys : List EvolveBlock),
    xs.map EvolveBlock.block_id = ys.map EvolveBlock.block_id →
    checkIds xs ys = .ok () := by
  intro xs
  induction xs with
  | nil => intro ys _; cases ys <;> rfl
  | cons x xs ih =>
    intro ys h
    cases ys with
    | nil => simp at h
    | cons y ys =>
      simp at h
      obtain ⟨h1, h2⟩ := h
      simp [checkIds, h1, ih ys h2]

/-! Section: Claim C1 -/

/-- Claim C1: for every program text whose EVOLVE-BLOCK structure is valid
(extraction succeeds), replacing with exactly the extracted block list
reproduces the original text byte for byte. -/
theorem c1_round_trip_identity (text : List Char) (bs : List EvolveBlock)
    (h : extract_evolve_blocks (readlines text) = .ok bs) :
    ∃ out, replace_evolve_blocks (readlines text) bs = .ok out
      ∧ out.flatten = text := by
  have hids : bs.map EvolveBlock.block_id = idsFrom 0 bs.length :=
    extract_ids (readlines text).length (readlines text) le_rfl 0 0 bs h
  have hpair : List.Pairwise (fun a b => a.block_id ≤ b.block_id) bs := by
    have hp := pairwise_lt_idsFrom bs.length 0
    rw [← hids] at hp
    exact ((List.pairwise_map).mp hp).imp (fun hlt => Nat.le_of_lt hlt)
  have hsort : sortBlocks bs = bs := sortBlocks_eq_self bs hpair
  have hchk : checkIds bs bs = .ok () := checkIds_ok_of_map_eq bs bs rfl
  obtain ⟨out, hb, hf⟩ := extract_build_round (readlines text).length
    (readlines text) le_rfl (readlines_proper text) 0 0 0 bs h
  refine ⟨out, ?_, ?_⟩
  · simp only [replace_evolve_blocks, h, hsort, hchk, hb]
    simp
  · rw [hf, readlines_flatten]

/-- Witness for C1 on the demo one-region program. -/
theorem c1_round_trip_identity_witness :
    extract_evolve_blocks (readlines demoText1)
        = .ok [⟨0, 2, "pass".data ++ [newlineChar], 0⟩]
      ∧ ∃ out,
        replace_evolve_blocks (readlines demoText1)
            [⟨0, 2, "pass".data ++ [newlineChar], 0⟩] = .ok out
          ∧ out.flatten = demoText1 :=
  ⟨rfl, c1_round_trip_identity demoText1
    [⟨0, 2, "pass".data ++ [newlineChar], 0⟩] rfl⟩

/-! Section: Claim C2 -/

/-- Claim C2 (code bug): the spec requires nested start markers to fail
validation, but `validate_program` accepts the canonical nested program
start/start/end/end — its nesting stack only ever holds `start` tags, so
the improper-nesting branch can never fire. -/
theorem c2_nested_text_validates : validate_program demoNestedText = true := by
  decide

/-! Section: Claim C3 -/

/-- Claim C3 (counterexample): `create_version` names version 5 of base
program `prog.py` as `iteration_005.py`; the base program name `prog`
does not occur in that file name, contrary to the claim. -/
theorem c3_counterexample :
    create_version_filename "prog.py".data 5 = .ok "iteration_005.py".data
      ∧ hasSubstr "prog".data "iteration_005.py".data = false := by
  constructor
  · rfl
  · decide

/-- Claim C3 (amended): for every base path and iteration number at least
1, the version file name is `iteration_` followed by the iteration index
zero-padded to at least 3 digits, followed by the file extension of the
base program; the name of the base program is not part of it. -/
theorem c3_versioned_filename_amended (base : List Char) (n : Nat) (h : 1 ≤ n) :
    create_version_filename base n
        = .ok ("iteration_".data ++ pad3 n ++ pathSuffix base)
      ∧ 3 ≤ (pad3 n).length
      ∧ (Nat.repr n).data <:+ pad3 n
      ∧ ∀ c ∈ (pad3 n).take ((pad3 n).length - (Nat.repr n).data.length), c = '0' := by
  have hn : ¬ n < 1 := by omega
  refine ⟨by simp [create_version_filename, hn, versioned_filename], ?_, ?_, ?_⟩
  · simp [pad3]
    omega
  · exact ⟨List.replicate (3 - (Nat.repr n).data.length) '0', rfl⟩
  · intro c hc
    simp only [pad3] at hc
    have hlen : (List.replicate (3 - (Nat.repr n).data.length) '0'
          ++ (Nat.repr n).data).length - (Nat.repr n).data.length
        = (List.replicate (3 - (Nat.repr n).data.length) '0').length := by
      simp
    rw [hlen, List.take_left] at hc
    exact List.eq_of_mem_replicate hc

/-- Witness for the amended C3 at base `prog.py`, iteration 5. -/
theorem c3_versioned_filename_amended_witness :
    (1 ≤ 5)
      ∧ (create_version_filename "prog.py".data 5
          = .ok ("iteration_".data ++ pad3 5 ++ pathSuffix "prog.py".data)) :=
  ⟨by decide, (c3_versioned_filename_amended "prog.py".data 5 (by decide)).1⟩

/-! Section: Claim C4 -/

/-- Claim C4 (counterexample): the controller copies the initial program
under the name `v00_<initial-name>` — a literal `v00_` prefix — not
`v000_<initial-name>` as claimed. -/
theorem c4_counterexample :
    run_initial_name "init.py".data = "v00_init.py".data
      ∧ run_initial_name "init.py".data ≠ "v000_init.py".data := by
  constructor
  · rfl
  · decide

/-- Claim C4 (amended): on run start the controller copies the initial
program verbatim into the `programs/` subdirectory of the output directory
under the name `v00_<initial-name>` (the version index rendered as the
literal two-digit `00`), leaving every other path untouched. -/
theorem c4_version_zero_copy_amended (fs : FS) (output_dir ipath content : List Char)
    (h : fs ipath = some content) :
    ∃ fs2, setup_output_directory fs output_dir ipath = .ok fs2
      ∧ fs2 (output_dir ++ "/programs/".data ++ ("v00_".data ++ pathName ipath))
          = some content
      ∧ ∀ q, q ≠ output_dir ++ "/programs/".data ++ ("v00_".data ++ pathName ipath)
          → fs2 q = fs q := by
  have hdest : output_dir ++ "/programs/".data ++ ("v00_".data ++ pathName ipath)
      = setup_output_dest output_dir (run_initial_name ipath) := by
    simp [setup_output_dest, run_initial_name]
  refine ⟨fun p =>
      if p = setup_output_dest output_dir (run_initial_name ipath)
      then some content else fs p, ?_, ?_, ?_⟩
  · simp [setup_output_directory, h]
  · rw [hdest]
    simp
  · intro q hq
    rw [hdest] at hq
    simp [hq]

/-- Witness for the amended C4 on the demo file system. -/
theorem c4_version_zero_copy_amended_witness :
    ∃ fs2, setup_output_directory demoFS "out".data "orig.py".data = .ok fs2
      ∧ fs2 ("out".data ++ "/programs/".data ++ ("v00_".data ++ pathName "orig.py".data))
          = some demoText1
      ∧ ∀ q, q ≠ "out".data ++ "/programs/".data ++ ("v00_".data ++ pathName "orig.py".data)
          → fs2 q = demoFS q :=
  c4_version_zero_copy_amended demoFS "out".data "orig.py".data demoText1 rfl

/-! Section: Claim C5 -/

/-- Claim C5: whenever the length of the replacement list differs from the
current region count, `replace_evolve_blocks` fails with the
count-mismatch error, whose message names both counts. -/
theorem c5_count_mismatch (lines : List Line) (cur blocks : List EvolveBlock)
    (h1 : extract_evolve_blocks lines = .ok cur)
    (h2 : blocks.length ≠ cur.length) :
    replace_evolve_blocks lines blocks
        = .error (.countMismatch cur.length blocks.length)
      ∧ (Nat.repr cur.length).data
          <:+: errorMessage (.countMismatch cur.length blocks.length)
      ∧ (Nat.repr blocks.length).data
          <:+: errorMessage (.countMismatch cur.length blocks.length) := by
  refine ⟨?_, ?_, ?_⟩
  · simp only [replace_evolve_blocks, h1]
    simp [h2]
  · exact ⟨"Number of blocks mismatch: expected ".data,
      ", got ".data ++ (Nat.repr blocks.length).data, by simp [errorMessage]⟩
  · exact ⟨"Number of blocks mismatch: expected ".data ++ (Nat.repr cur.length).data
        ++ ", got ".data, [], by simp [errorMessage]⟩

/-- Witness for C5: the demo one-region program with an empty replacement
list. -/
theorem c5_count_mismatch_witness :
    extract_evolve_blocks (readlines demoText1)
        = .ok [⟨0, 2, "pass".data ++ [newlineChar], 0⟩]
      ∧ replace_evolve_blocks (readlines demoText1) []
          = .error (.countMismatch 1 0) :=
  ⟨rfl, (c5_count_mismatch (readlines demoText1)
      [⟨0, 2, "pass".data ++ [newlineChar], 0⟩] [] rfl (by decide)).1⟩

/-! Section: Claim C7 -/

/-- Claim C7: any failure of `replace_evolve_blocks` — in particular a
count- or id-mismatch contract error — happens before the single write,
so the file system is returned unchanged; on success exactly one path is
written, with the fully buffered flattened result. -/
theorem c7_contract_error_atomicity (fs : FS) (pp op : List Char)
    (bs : List EvolveBlock) :
    (∀ e, (replace_evolve_blocks_fs fs pp bs op).1 = .error e
        → (replace_evolve_blocks_fs fs pp bs op).2 = fs)
      ∧ ((replace_evolve_blocks_fs fs pp bs op).1 = .ok ()
        → ∃ text new_lines, fs pp = some text
            ∧ replace_evolve_blocks (readlines text) bs = .ok new_lines
            ∧ (replace_evolve_blocks_fs fs pp bs op).2
                = fun q => if q = op then some new_lines.flatten else fs q) := by
  cases hfs : fs pp with
  | none =>
    have heq : replace_evolve_blocks_fs fs pp bs op = (.error .fileNotFound, fs) := by
      simp [replace_evolve_blocks_fs, hfs]
    rw [heq]
    constructor
    · intro e _
      rfl
    · intro hok
      simp at hok
  | some text =>
    cases hrep : replace_evolve_blocks (readlines text) bs with
    | error e2 =>
      have heq : replace_evolve_blocks_fs fs pp bs op = (.error e2, fs) := by
        simp [replace_evolve_blocks_fs, hfs, hrep]
      rw [heq]
      constructor
      · intro e _
        rfl
      · intro hok
        simp at hok
    | ok new_lines =>
      have heq : replace_evolve_blocks_fs fs pp bs op
          = (.ok (), fun q => if q = op then some new_lines.flatten else fs q) := by
        simp [replace_evolve_blocks_fs, hfs, hrep]
      rw [heq]
      constructor
      · intro e he
        simp at he
      · intro _
        refine ⟨text, new_lines, rfl, hrep, rfl⟩


/-- Witness for C7: a count-mismatch contract error on the demo file
system leaves it unchanged. -/
theorem c7_contract_error_atomicity_witness :
    (replace_evolve_blocks_fs demoFS "orig.py".data [] "out.py".data).2 = demoFS :=
  (c7_contract_error_atomicity demoFS "orig.py".data "out.py".data []).1
    (Err.countMismatch 1 0) rfl

/-! Section: Claim C9 -/

/-- Claim C9 (counterexample): an empty replacement content string is
emitted unchanged — no newline is appended to it, contrary to the claim
that the empty content also receives exactly one appended newline. -/
theorem c9_counterexample :
    replace_evolve_blocks [demoStartLine, demoEndLine] [⟨0, 1, [], 0⟩]
        = .ok [demoStartLine, [], demoEndLine]
      ∧ replace_evolve_blocks [demoStartLine, demoEndLine] [⟨0, 1, [], 0⟩]
        ≠ .ok [demoStartLine, [newlineChar], demoEndLine] := by
  have h1 : replace_evolve_blocks [demoStartLine, demoEndLine] [⟨0, 1, [], 0⟩]
      = .ok [demoStartLine, [], demoEndLine] := by rfl
  refine ⟨h1, ?_⟩
  rw [h1]
  intro h
  have h2 : ([demoStartLine, [], demoEndLine] : List Line)
      = [demoStartLine, [newlineChar], demoEndLine] := by
    exact Except.ok.inj h
  simp at h2

/-- Claim C9 (amended): a non-empty replacement content that does not end
in a newline gets exactly one newline appended before the end marker line;
content already ending in a newline, and the empty content, are emitted
unchanged between the two preserved marker lines. -/
theorem c9_newline_normalization_amended (s e : Line) (c : List Char)
    (hs : isStartLine s = true) (he : isEndLine e = true) :
    replace_evolve_blocks [s, e] [⟨0, 1, c, 0⟩]
      = .ok [s, if c = [] ∨ c.getLast? = some newlineChar then c
                else c ++ [newlineChar], e] := by
  have hnorm : normalizeContent c
      = if c = [] ∨ c.getLast? = some newlineChar then c
        else c ++ [newlineChar] := by
    by_cases hc1 : c = [] <;> by_cases hc2 : c.getLast? = some newlineChar <;>
      simp [normalizeContent, hc1, hc2]
  have hext : extract_evolve_blocks [s, e] = .ok [⟨0, 1, [], 0⟩] := by
    simp [extract_evolve_blocks, extractLoop, hs, he]
  have hbuild : buildLoop [s, e] [⟨0, 1, c, 0⟩] 0 none
      = .ok [s, normalizeContent c, e] := by
    simp [buildLoop, hs, he]
  simp only [replace_evolve_blocks, hext]
  rw [if_neg (by simp)]
  simp [sortBlocks, insertBlock, checkIds, hbuild, hnorm]

/-- Witness for the amended C9 with content `x` (no trailing newline). -/
theorem c9_newline_normalization_amended_witness :
    isStartLine demoStartLine = true
      ∧ isEndLine demoEndLine = true
      ∧ replace_evolve_blocks [demoStartLine, demoEndLine] [⟨0, 1, "x".data, 0⟩]
        = .ok [demoStartLine,
            if "x".data = [] ∨ "x".data.getLast? = some newlineChar then "x".data
            else "x".data ++ [newlineChar], demoEndLine] :=
  ⟨by decide, by decide,
    c9_newline_normalization_amended demoStartLine demoEndLine "x".data
      (by decide) (by decide)⟩

/-! Section: Helper lemmas: sorting and id projection -/

theorem insertBlock_length (b : EvolveBlock) : ∀ (l : List EvolveBlock),
    (insertBlock b l).length = l.length + 1 := by
  intro l
  induction l with
  | nil => rfl
  | cons c cs ih =>
    by_cases h : b.block_id ≤ c.block_id
    · simp [insertBlock, h]
    · simp [insertBlock, h, ih]

theorem sortBlocks_length : ∀ (l : List EvolveBlock),
    (sortBlocks l).length = l.length := by
  intro l
  induction l with
  | nil => rfl
  | cons b bs ih => simp [sortBlocks, insertBlock_length, ih]

theorem map_id_insertBlock (b : EvolveBlock) : ∀ (l : List EvolveBlock),
    (insertBlock b l).map EvolveBlock.block_id
      = insertNat b.block_id (l.map EvolveBlock.block_id) := by
  intro l
  induction l with
  | nil => rfl
  | cons c cs ih =>
    by_cases h : b.block_id ≤ c.block_id
    · simp [insertBlock, insertNat, h]
    · simp [insertBlock, insertNat, h, ih]

theorem map_id_sortBlocks : ∀ (l : List EvolveBlock),
    (sortBlocks l).map EvolveBlock.block_id
      = sortNat (l.map EvolveBlock.block_id) := by
  intro l
  induction l with
  | nil => rfl
  | cons b bs ih => simp [sortBlocks, sortNat, map_id_insertBlock, ih]

theorem checkIds_error_of_map_ne : ∀ (xs ys : List EvolveBlock),
    xs.length = ys.length →
    xs.map EvolveBlock.block_id ≠ ys.map EvolveBlock.block_id →
    ∃ a b, checkIds xs ys = .error (.idMismatch a b) := by
  intro xs
  induction xs with
  | nil =>
    intro ys hlen hne
    cases ys with
    | nil => simp at hne
    | cons y ys => simp at hlen
  | cons x xs ih =>
    intro ys hlen hne
    cases ys with
    | nil => simp at hlen
    | cons y ys =>
      by_cases hxy : x.block_id = y.block_id
      · have hne2 : xs.map EvolveBlock.block_id ≠ ys.map EvolveBlock.block_id := by
          intro hcontra
          apply hne
          simp [hxy, hcontra]
        obtain ⟨a, b, h⟩ := ih ys (by simp at hlen; omega) hne2
        exact ⟨a, b, by simp [checkIds, hxy, h]⟩
      · exact ⟨y.block_id, x.block_id, by simp [checkIds, hxy]⟩

/-! Section: Claim C6 -/

/-- Claim C6: a replacement list of the right length whose sorted id
multiset is not exactly `0, …, n-1` makes `replace_evolve_blocks` fail
with an id-mismatch error. -/
theorem c6_id_mismatch (lines : List Line) (cur blocks : List EvolveBlock)
    (h1 : extract_evolve_blocks lines = .ok cur)
    (h2 : blocks.length = cur.length)
    (h3 : sortNat (blocks.map EvolveBlock.block_id) ≠ List.range cur.length) :
    ∃ a b, replace_evolve_blocks lines blocks = .error (.idMismatch a b) := by
  have hcur : cur.map EvolveBlock.block_id = List.range cur.length := by
    have := extract_ids lines.length lines le_rfl 0 0 cur h1
    rw [this, idsFrom_zero]
  have hne : (sortBlocks blocks).map EvolveBlock.block_id
      ≠ cur.map EvolveBlock.block_id := by
    rw [map_id_sortBlocks, hcur]
    simpa using h3
  obtain ⟨a, b, hchk⟩ := checkIds_error_of_map_ne (sortBlocks blocks) cur
    (by rw [sortBlocks_length, h2]) hne
  refine ⟨a, b, ?_⟩
  simp only [replace_evolve_blocks, h1]
  rw [if_neg (by simp [h2])]
  simp [hchk]

/-- Witness for C6: one region, one replacement with id 3. -/
theorem c6_id_mismatch_witness :
    ∃ a b, replace_evolve_blocks (readlines demoText1) [⟨0, 2, [], 3⟩]
      = .error (.idMismatch a b) :=
  c6_id_mismatch (readlines demoText1)
    [⟨0, 2, "pass".data ++ [newlineChar], 0⟩] [⟨0, 2, [], 3⟩]
    rfl rfl (by decide)

/-! Section: Helper lemmas: permutation behavior of the sort -/

theorem insertBlock_perm (b : EvolveBlock) : ∀ (l : List EvolveBlock),
    (insertBlock b l).Perm (b :: l) := by
  intro l
  induction l with
  | nil => exact List.Perm.refl _
  | cons c cs ih =>
    by_cases h : b.block_id ≤ c.block_id
    · rw [show insertBlock b (c :: cs) = b :: c :: cs from by simp [insertBlock, h]]
    · rw [show insertBlock b (c :: cs) = c :: insertBlock b cs from by
        simp [insertBlock, h]]
      exact (ih.cons c).trans (List.Perm.swap b c cs)

theorem sortBlocks_perm : ∀ (l : List EvolveBlock), (sortBlocks l).Perm l := by
  intro l
  induction l with
  | nil => exact List.Perm.refl _
  | cons b bs ih =>
    rw [sortBlocks]
    exact (insertBlock_perm b (sortBlocks bs)).trans (ih.cons b)

theorem insertBlock_sorted {b : EvolveBlock} : ∀ {l : List EvolveBlock},
    List.Pairwise (fun a c => a.block_id ≤ c.block_id) l →
    List.Pairwise (fun a c => a.block_id ≤ c.block_id) (insertBlock b l) := by
  intro l
  induction l with
  | nil => intro _; simp [insertBlock]
  | cons c cs ih =>
    intro h
    rw [List.pairwise_cons] at h
    obtain ⟨hc, hcs⟩ := h
    by_cases hbc : b.block_id ≤ c.block_id
    · rw [show insertBlock b (c :: cs) = b :: c :: cs from by simp [insertBlock, hbc]]
      refine List.Pairwise.cons ?_ (List.Pairwise.cons hc hcs)
      intro x hx
      rcases List.mem_cons.mp hx with rfl | hx
      · exact hbc
      · exact Nat.le_trans hbc (hc x hx)
    · rw [show insertBlock b (c :: cs) = c :: insertBlock b cs from by
        simp [insertBlock, hbc]]
      refine List.Pairwise.cons ?_ (ih hcs)
      intro x hx
      have hmem := (insertBlock_perm b cs).mem_iff.mp hx
      rcases List.mem_cons.mp hmem with rfl | hx2
      · omega
      · exact hc x hx2

theorem sortBlocks_sorted : ∀ (l : List EvolveBlock),
    List.Pairwise (fun a c => a.block_id ≤ c.block_id) (sortBlocks l) := by
  intro l
  induction l with
  | nil => simp [sortBlocks]
  | cons b bs ih =>
    rw [sortBlocks]
    exact insertBlock_sorted ih

theorem sortBlocks_eq_of_perm (xs ys : List EvolveBlock) (hp : xs.Perm ys)
    (hnd : List.Nodup (xs.map EvolveBlock.block_id)) :
    sortBlocks xs = sortBlocks ys := by
  have hpx : (sortBlocks xs).Perm (sortBlocks ys) :=
    (sortBlocks_perm xs).trans (hp.trans (sortBlocks_perm ys).symm)
  have hndx : List.Nodup ((sortBlocks xs).map EvolveBlock.block_id) :=
    (((sortBlocks_perm xs).map EvolveBlock.block_id).nodup_iff).mpr hnd
  have hndy : List.Nodup ((sortBlocks ys).map EvolveBlock.block_id) :=
    ((hpx.map EvolveBlock.block_id).nodup_iff).mp hndx
  have hltx : List.Pairwise (fun a c => a.block_id < c.block_id) (sortBlocks xs) := by
    have hne := (List.pairwise_map).mp hndx
    exact ((sortBlocks_sorted xs).and hne).imp
      (fun h => Nat.lt_of_le_of_ne h.1 h.2)
  have hlty : List.Pairwise (fun a c => a.block_id < c.block_id) (sortBlocks ys) := by
    have hne := (List.pairwise_map).mp hndy
    exact ((sortBlocks_sorted ys).and hne).imp
      (fun h => Nat.lt_of_le_of_ne h.1 h.2)
  haveI : IsAntisymm EvolveBlock (fun a c => a.block_id < c.block_id) :=
    ⟨fun a c h1 h2 => absurd h2 (Nat.lt_asymm h1)⟩
  exact List.eq_of_perm_of_sorted hpx hltx hlty

theorem checkIds_map_eq_of_ok : ∀ (xs ys : List EvolveBlock),
    xs.length = ys.length → checkIds xs ys = .ok () →
    xs.map EvolveBlock.block_id = ys.map EvolveBlock.block_id := by
  intro xs
  induction xs with
  | nil =>
    intro ys hlen _
    cases ys with
    | nil => rfl
    | cons y ys => simp at hlen
  | cons x xs ih =>
    intro ys hlen hok
    cases ys with
    | nil => simp at hlen
    | cons y ys =>
      by_cases hxy : x.block_id = y.block_id
      · rw [show checkIds (x :: xs) (y :: ys) = checkIds xs ys from by
          simp [checkIds, hxy]] at hok
        simp [hxy, ih ys (by simp at hlen; omega) hok]
      · rw [show checkIds (x :: xs) (y :: ys)
            = .error (.idMismatch y.block_id x.block_id) from by
          simp [checkIds, hxy]] at hok
        simp at hok

/-! Section: Claim C8 -/

/-- Claim C8: when `replace_evolve_blocks` accepts a replacement list, any
permutation of that list is also accepted and yields the identical output
— content is matched to spans by block id, not by list position. -/
theorem c8_permutation_invariance (lines : List Line)
    (blocks blocks2 : List EvolveBlock) (out : List Line)
    (hok : replace_evolve_blocks lines blocks = .ok out)
    (hperm : blocks2.Perm blocks) :
    replace_evolve_blocks lines blocks2 = .ok out := by
  cases hext : extract_evolve_blocks lines with
  | error e =>
    simp only [replace_evolve_blocks, hext] at hok
    simp at hok
  | ok cur =>
    simp only [replace_evolve_blocks, hext] at hok ⊢
    by_cases hlen : blocks.length = cur.length
    · rw [if_neg (by simp [hlen])] at hok
      cases hchk : checkIds (sortBlocks blocks) cur with
      | error e =>
        rw [hchk] at hok
        simp at hok
      | ok u =>
        cases u
        rw [hchk] at hok
        have hmape : (sortBlocks blocks).map EvolveBlock.block_id
            = cur.map EvolveBlock.block_id :=
          checkIds_map_eq_of_ok _ _ (by rw [sortBlocks_length, hlen]) hchk
        have hcur : cur.map EvolveBlock.block_id = List.range cur.length := by
          have := extract_ids lines.length lines le_rfl 0 0 cur hext
          rw [this, idsFrom_zero]
        have hnd : List.Nodup (blocks.map EvolveBlock.block_id) := by
          have h1 : List.Nodup ((sortBlocks blocks).map EvolveBlock.block_id) := by
            rw [hmape, hcur]
            exact List.nodup_range _
          exact (((sortBlocks_perm blocks).map EvolveBlock.block_id).nodup_iff).mp h1
        have hnd2 : List.Nodup (blocks2.map EvolveBlock.block_id) :=
          ((hperm.map EvolveBlock.block_id).nodup_iff).mpr hnd
        have hsorteq : sortBlocks blocks2 = sortBlocks blocks :=
          sortBlocks_eq_of_perm blocks2 blocks hperm hnd2
        rw [if_neg (by simp [hperm.length_eq, hlen])]
        rw [hsorteq, hchk]
        exact hok
    · rw [if_pos (by simpa using hlen)] at hok
      simp at hok

/-- Witness for C8: the two-region demo program with the replacement list
supplied in reversed id order. -/
theorem c8_permutation_invariance_witness :
    replace_evolve_blocks (readlines demoText2)
        [⟨0, 2, "y".data, 1⟩, ⟨0, 2, "x".data, 0⟩]
      = .ok [demoStartLine, "x".data ++ [newlineChar], demoEndLine,
             demoStartLine, "y".data ++ [newlineChar], demoEndLine] :=
  c8_permutation_invariance (readlines demoText2)
    [⟨0, 2, "x".data, 0⟩, ⟨0, 2, "y".data, 1⟩]
    [⟨0, 2, "y".data, 1⟩, ⟨0, 2, "x".data, 0⟩]
    [demoStartLine, "x".data ++ [newlineChar], demoEndLine,
     demoStartLine, "y".data ++ [newlineChar], demoEndLine]
    rfl
    (List.Perm.swap (⟨0, 2, "x".data, 0⟩ : EvolveBlock) (⟨0, 2, "y".data, 1⟩ : EvolveBlock) [])

/-! Section: Helper lemmas: only id and content are consulted -/

theorem insertBlock_proj_congr : ∀ (b b2 : EvolveBlock) (l l2 : List EvolveBlock),
    idContent b = idContent b2 →
    l.map idContent = l2.map idContent →
    (insertBlock b l).map idContent = (insertBlock b2 l2).map idContent := by
  intro b b2 l
  induction l generalizing b b2 with
  | nil =>
    intro l2 hb hl
    have : l2 = [] := by
      cases l2 with
      | nil => rfl
      | cons c cs => simp at hl
    subst this
    simp [insertBlock, hb]
  | cons c cs ih =>
    intro l2 hb hl
    cases l2 with
    | nil => simp at hl
    | cons c2 cs2 =>
      simp at hl
      obtain ⟨hc, hcs⟩ := hl
      have hidb : b.block_id = b2.block_id := congrArg Prod.fst hb
      have hidc : c.block_id = c2.block_id := congrArg Prod.fst hc
      by_cases hbc : b.block_id ≤ c.block_id
      · have hbc2 : b2.block_id ≤ c2.block_id := by omega
        rw [show insertBlock b (c :: cs) = b :: c :: cs from by simp [insertBlock, hbc]]
        rw [show insertBlock b2 (c2 :: cs2) = b2 :: c2 :: cs2 from by
          simp [insertBlock, hbc2]]
        simp [hb, hc, hcs]
      · have hbc2 : ¬ b2.block_id ≤ c2.block_id := by omega
        rw [show insertBlock b (c :: cs) = c :: insertBlock b cs from by
          simp [insertBlock, hbc]]
        rw [show insertBlock b2 (c2 :: cs2) = c2 :: insertBlock b2 cs2 from by
          simp [insertBlock, hbc2]]
        simp [hc, ih b b2 cs2 hb hcs]

theorem sortBlocks_proj_congr : ∀ (l l2 : List EvolveBlock),
    l.map idContent = l2.map idContent →
    (sortBlocks l).map idContent = (sortBlocks l2).map idContent := by
  intro l
  induction l with
  | nil =>
    intro l2 hl
    have : l2 = [] := by
      cases l2 with
      | nil => rfl
      | cons c cs => simp at hl
    subst this
    rfl
  | cons b bs ih =>
    intro l2 hl
    cases l2 with
    | nil => simp at hl
    | cons b2 bs2 =>
      simp at hl
      obtain ⟨hb, hbs⟩ := hl
      rw [sortBlocks, sortBlocks]
      exact insertBlock_proj_congr b b2 (sortBlocks bs) (sortBlocks bs2) hb (ih bs2 hbs)

theorem checkIds_congr_left : ∀ (xs ys cur : List EvolveBlock),
    xs.map EvolveBlock.block_id = ys.map EvolveBlock.block_id →
    checkIds xs cur = checkIds ys cur := by
  intro xs
  induction xs with
  | nil =>
    intro ys cur h
    have : ys = [] := by
      cases ys with
      | nil => rfl
      | cons y ys => simp at h
    subst this
    rfl
  | cons x xs ih =>
    intro ys cur h
    cases ys with
    | nil => simp at h
    | cons y ys =>
      simp at h
      obtain ⟨hxy, hxs⟩ := h
      cases cur with
      | nil => rfl
      | cons c cs =>
        by_cases hxc : x.block_id = c.block_id
        · have hyc : y.block_id = c.block_id := by omega
          rw [show checkIds (x :: xs) (c :: cs) = checkIds xs cs from by
            simp [checkIds, hxc]]
          rw [show checkIds (y :: ys) (c :: cs) = checkIds ys cs from by
            simp [checkIds, hyc]]
          exact ih ys cs hxs
        · have hyc : ¬ y.block_id = c.block_id := by omega
          rw [show checkIds (x :: xs) (c :: cs)
              = .error (.idMismatch c.block_id x.block_id) from by
            simp [checkIds, hxc]]
          rw [show checkIds (y :: ys) (c :: cs)
              = .error (.idMismatch c.block_id y.block_id) from by
            simp [checkIds, hyc]]
          rw [hxy]

theorem buildLoop_congr : ∀ (n : Nat) (lines : List Line), lines.length ≤ n →
    ∀ (xs ys : List EvolveBlock) (i : Nat),
      xs.map EvolveBlock.content = ys.map EvolveBlock.content →
      buildLoop lines xs i none = buildLoop lines ys i none := by
  intro n
  induction n with
  | zero =>
    intro lines hlen xs ys i _
    have hnil : lines = [] := List.eq_nil_of_length_eq_zero (by omega)
    subst hnil
    rfl
  | succ n ih =>
    intro lines hlen xs ys i h
    cases lines with
    | nil => rfl
    | cons l ls =>
      cases hl : isStartLine l with
      | false =>
        rw [buildLoop_cons_not_start hl, buildLoop_cons_not_start hl,
          ih ls (by simp at hlen; omega) xs ys (i + 1) h]
      | true =>
        cases hsp : splitAtEnd ls with
        | none => rw [buildLoop_start_none hl hsp, buildLoop_start_none hl hsp]
        | some v =>
          obtain ⟨body, e, rest⟩ := v
          cases xs with
          | nil =>
            have : ys = [] := by
              cases ys with
              | nil => rfl
              | cons y ys => simp at h
            subst this
            rfl
          | cons x xs2 =>
            cases ys with
            | nil => simp at h
            | cons y ys2 =>
              simp at h
              obtain ⟨hxy, hxs⟩ := h
              rw [buildLoop_start_some hl hsp x xs2 i,
                buildLoop_start_some hl hsp y ys2 i]
              have hlen2 : rest.length ≤ n := by
                have := splitAtEnd_length hsp
                simp at hlen
                omega
              rw [ih rest hlen2 xs2 ys2 (i + body.length + 2) hxs, hxy]

/-! Section: Claim C10 -/

/-- Claim C10: two replacement lists that agree position by position on
block id and content — but may differ arbitrarily in their `start_line`
and `end_line` fields — produce the same result in
`replace_evolve_blocks`; supplied positions are never consulted. -/
theorem c10_positions_ignored (lines : List Line) (bs bs2 : List EvolveBlock)
    (h : bs.map idContent = bs2.map idContent) :
    replace_evolve_blocks lines bs = replace_evolve_blocks lines bs2 := by
  have hlen : bs.length = bs2.length := by
    have := congrArg List.length h
    simpa using this
  have hproj_sort : (sortBlocks bs).map idContent = (sortBlocks bs2).map idContent :=
    sortBlocks_proj_congr bs bs2 h
  have hid_sort : (sortBlocks bs).map EvolveBlock.block_id
      = (sortBlocks bs2).map EvolveBlock.block_id := by
    have := congrArg (List.map Prod.fst) hproj_sort
    simpa [List.map_map, Function.comp, idContent] using this
  have hcontent_sort : (sortBlocks bs).map EvolveBlock.content
      = (sortBlocks bs2).map EvolveBlock.content := by
    have := congrArg (List.map Prod.snd) hproj_sort
    simpa [List.map_map, Function.comp, idContent] using this
  cases hext : extract_evolve_blocks lines with
  | error e => simp [replace_evolve_blocks, hext]
  | ok cur =>
    simp only [replace_evolve_blocks, hext]
    rw [hlen]
    by_cases hl2 : bs2.length ≠ cur.length
    · rw [if_pos hl2, if_pos hl2]
    · rw [if_neg hl2, if_neg hl2]
      rw [checkIds_congr_left (sortBlocks bs) (sortBlocks bs2) cur hid_sort]
      cases hchk : checkIds (sortBlocks bs2) cur with
      | error e => rfl
      | ok u =>
        have := buildLoop_congr lines.length lines le_rfl
          (sortBlocks bs) (sortBlocks bs2) 0 hcontent_sort
        simp [this]

/-- Witness for C10: two single-block lists with equal id and content but
different position fields. -/
theorem c10_positions_ignored_witness :
    ([(⟨0, 2, "x".data, 0⟩ : EvolveBlock)].map idContent
        = [(⟨5, 99, "x".data, 0⟩ : EvolveBlock)].map idContent)
      ∧ replace_evolve_blocks (readlines demoText1) [⟨0, 2, "x".data, 0⟩]
        = replace_evolve_blocks (readlines demoText1) [⟨5, 99, "x".data, 0⟩] :=
  ⟨rfl, c10_positions_ignored (readlines demoText1)
    [⟨0, 2, "x".data, 0⟩] [⟨5, 99, "x".data, 0⟩] rfl⟩
